import Mathlib

/-!
Verification of the ratio-panel construction and AR(1) estimation pipeline
(`load_data.py`, `ar_model.py`, `config.py`).

The embedding models the pandas data frames by first-order data:
a statement table is a list of `(quarter, row)` pairs, a row is an
association list from column name to an optional rational (`none` models
NaN, i.e. a missing / non-numeric value), and the assembled panel is a
list of `PanelRow` records.  Machine floats are modelled by `ℚ`; `none`
models NaN throughout.
-/

namespace Zeitreihen

/-- Calendar quarter `(year, quarter-of-year)`, the embedding of a pandas
`Period` with quarterly frequency. -/
abbrev Quarter := ℕ × ℕ

/-- Chronological sort key of a quarter (mirrors the ordering of a pandas
`PeriodIndex`; for the canonical quarters, `q.2 ∈ {1,2,3,4}`, this is the
chronological order). -/
def qKey (q : Quarter) : ℕ := q.1 * 4 + q.2

/-- A calendar date `(year, month, day)`; the embedding of a successfully
parsed `pd.to_datetime` value. -/
structure Date where
  y : ℕ
  m : ℕ
  d : ℕ
deriving DecidableEq

/-- Chronological sort key of a date (for real dates, `m ≤ 12`, `d ≤ 31`,
this agrees with chronological order). -/
def dateKey (dt : Date) : ℕ := (dt.y * 100 + dt.m) * 100 + dt.d

/-- The calendar quarter a date falls in: `df["date"].dt.to_period("Q")`. -/
def quarterOf (dt : Date) : Quarter := (dt.y, (dt.m + 2) / 3)

/-- A row of numeric fields, keyed by column name.  `none` is NaN
(missing or non-numeric after `pd.to_numeric(errors="coerce")`). -/
abbrev Row := List (String × Option ℚ)

/-- A per-company, per-statement-type table after quarter alignment:
one `(quarter, fields)` entry per row, indexed by calendar quarter. -/
abbrev SourceTable := List (Quarter × Row)

/-- One raw CSV record before alignment.  `date = none` models an
unparseable date (`pd.to_datetime(..., errors="coerce")` yields NaT). -/
structure RawRec where
  date : Option Date
  fields : Row
deriving DecidableEq

/-- Statement type: the three required source kinds. -/
inductive Src
  | income
  | balance
  | cashflow
deriving DecidableEq

/-- The three per-statement-type aligned tables of one company;
`none` is the "absent" signal of `_load_source` (missing or empty file). -/
structure Sources where
  income : Option SourceTable
  balance : Option SourceTable
  cashflow : Option SourceTable

/-- Select one statement table, mirroring `sources[src_name]`. -/
def Sources.get (s : Sources) : Src → Option SourceTable
  | .income => s.income
  | .balance => s.balance
  | .cashflow => s.cashflow

/-! ### Configuration (`config.py`) -/

/-- `YEAR_START = 2000`. -/
def YEAR_START : ℕ := 2000

/-- `YEAR_END = 2024`. -/
def YEAR_END : ℕ := 2024

/-- `EXPECTED_QUARTERS = (YEAR_END - YEAR_START + 1) * 4 = 100`. -/
def EXPECTED_QUARTERS : ℕ := (YEAR_END - YEAR_START + 1) * 4

/-- `EXCLUDED_SECTORS`. -/
def EXCLUDED_SECTORS : List String := ["Financial Services", "Banks", "Insurance"]

/-- `RatioDef` from `config.py`: definition of one financial ratio. -/
structure RatioDef where
  name : String
  label : String
  category : String
  numerator_col : String
  numerator_src : Src
  denominator_col : String
  denominator_src : Src

/-- The fixed list of seven ratio definitions (`RATIOS` in `config.py`). -/
def RATIOS : List RatioDef :=
  [ ⟨"ROA", "Return on Assets", "Profitabilität",
      "netIncome", .income, "totalAssets", .balance⟩,
    ⟨"ROE", "Return on Equity", "Profitabilität",
      "netIncome", .income, "totalStockholderEquity", .balance⟩,
    ⟨"EBIT_margin", "EBIT-Marge", "Profitabilität",
      "ebit", .income, "totalRevenue", .income⟩,
    ⟨"fcf_margin", "Free-Cashflow-Marge", "Profitabilität",
      "freeCashFlow", .cashflow, "totalRevenue", .income⟩,
    ⟨"current_ratio", "Current Ratio", "Liquidität",
      "totalCurrentAssets", .balance, "totalCurrentLiabilities", .balance⟩,
    ⟨"debt_to_equity", "Debt-to-Equity", "Kapitalstruktur",
      "shortLongTermDebtTotal", .balance, "totalStockholderEquity", .balance⟩,
    ⟨"equity_ratio", "Eigenkapitalquote", "Kapitalstruktur",
      "totalStockholderEquity", .balance, "totalAssets", .balance⟩ ]

/-- `RATIO_NAMES = [r.name for r in RATIOS]`. -/
def RATIO_NAMES : List String := RATIOS.map (·.name)

/-- `WINSORIZE_QUANTILES = (0.01, 0.99)`. -/
def WINSORIZE_QUANTILES : ℚ × ℚ := (1/100, 99/100)

/-- `AR_ORDER = 1`. -/
def AR_ORDER : ℕ := 1

/-- `DIFF_ORDER = 1`. -/
def DIFF_ORDER : ℕ := 1

/-- The canonical quarter index Q1 2000 .. Q4 2024
(`pd.period_range(f"{YEAR_START}Q1", f"{YEAR_END}Q4", freq="Q")`). -/
def expectedQuarters : List Quarter :=
  (List.range (YEAR_END - YEAR_START + 1)).flatMap
    (fun i => [(YEAR_START + i, 1), (YEAR_START + i, 2),
               (YEAR_START + i, 3), (YEAR_START + i, 4)])

/-! ### Generic list helpers used by the embedding -/

/-- Stable sort by a natural-number key (embeds `sort_values` /
`sort_index`; stability is irrelevant for the verified properties). -/
def sortByKey {α : Type} (key : α → ℕ) (l : List α) : List α :=
  List.insertionSort (fun a b => key a ≤ key b) l

/-- `drop_duplicates(subset=[key], keep="last")`: keep an element iff no
later element of the list has the same key; original order preserved. -/
def keepLastByKey {α κ : Type} [DecidableEq κ] (key : α → κ) : List α → List α
  | [] => []
  | x :: xs =>
      if xs.any (fun y => key y = key x) then keepLastByKey key xs
      else x :: keepLastByKey key xs

/-! ### Quarter Aligner (`_load_source`) -/

/-- Metadata columns stripped by `_load_source`. -/
def META_COLS : List String := ["date", "filing_date", "currency_symbol", "symbol"]

/-- `df.dropna(subset=["date"])`: the records with parseable dates,
as `(date, fields)` pairs. -/
def parsedRecs (recs : List RawRec) : List (Date × Row) :=
  recs.filterMap (fun r => r.date.map (fun d => (d, r.fields)))

/-- The year-range filter `YEAR_START <= date.year <= YEAR_END`. -/
def rangedRecs (recs : List RawRec) : List (Date × Row) :=
  (parsedRecs recs).filter
    (fun p => decide (YEAR_START ≤ p.1.y) && decide (p.1.y ≤ YEAR_END))

/-- Core of `_load_source`, with the date column still attached:
drop unparseable dates, filter to the configured year range, stable-sort
by date, deduplicate per calendar quarter keeping the last (= latest
date), and finally sort by quarter (`set_index("quarter").sort_index()`). -/
def alignQuarters (recs : List RawRec) : List (Date × Row) :=
  sortByKey (fun p => qKey (quarterOf p.1))
    (keepLastByKey (fun p => quarterOf p.1)
      (sortByKey (fun p => dateKey p.1) (rangedRecs recs)))

/-- `_load_source` result for a present, non-empty file: the aligned
table indexed by quarter, metadata columns stripped.  (Numeric coercion
is implicit: field values are already `Option ℚ`.) -/
def loadSourceTable (recs : List RawRec) : SourceTable :=
  (alignQuarters recs).map
    (fun p => (quarterOf p.1, p.2.filter (fun kv => !(META_COLS.contains kv.1))))

/-- `_load_source`: `none` when the file is missing or empty
(the missing-file case is modelled by the caller passing `none`). -/
def loadSource (recs : List RawRec) : Option SourceTable :=
  if recs.isEmpty then none else some (loadSourceTable recs)

/-! ### Sector filter (`filter_sectors`) -/

/-- `filter_sectors`: remove tickers whose sector (defaulting to `""`
when the ticker has no entry in the sector map, `sector_map.get(t, "")`)
is in `EXCLUDED_SECTORS`. -/
def filterSectors (tickers : List String) (smap : List (String × String)) :
    List String :=
  tickers.filter (fun t => !(EXCLUDED_SECTORS.contains ((smap.lookup t).getD "")))

/-! ### Completeness Gate (`_is_complete`) -/

/-- Completeness of a single source: present, and every canonical quarter
appears in its index (`EXPECTED_QTR_INDEX.isin(df.index).all()`). -/
def srcComplete : Option SourceTable → Bool
  | none => false
  | some tbl => expectedQuarters.all (fun q => (tbl.map Prod.fst).contains q)

/-- `_is_complete`: all three sources are present and each covers all
100 canonical quarters. -/
def isComplete (s : Sources) : Bool :=
  srcComplete s.income && srcComplete s.balance && srcComplete s.cashflow

/-! ### Ratio Computer (`_compute_ratios`) -/

/-- Field lookup `sources[src][col][q]`: `none` when the source is
absent, the quarter has no row, or the field is missing. -/
def fieldAt (s : Sources) (src : Src) (q : Quarter) (col : String) : Option ℚ :=
  match s.get src with
  | none => none
  | some tbl =>
      match tbl.find? (fun p => decide (p.1 = q)) with
      | none => none
      | some p => (p.2.lookup col).join

/-- One ratio value for one quarter: `num / den.replace(0, np.nan)`.
A zero denominator is replaced by NaN before dividing, and float division
propagates NaN, so the value is `none` whenever the numerator is missing,
the denominator is missing, or the denominator is exactly zero. -/
def ratioValue (s : Sources) (r : RatioDef) (q : Quarter) : Option ℚ :=
  match fieldAt s r.numerator_src q r.numerator_col,
        fieldAt s r.denominator_src q r.denominator_col with
  | some n, some d => if d = 0 then none else some (n / d)
  | _, _ => none

/-- A row of the assembled long-format panel. -/
structure PanelRow where
  ticker : String
  quarter : Quarter
  values : List (String × Option ℚ)
deriving DecidableEq

/-- `_compute_ratios` (with the `ticker` column already attached, as in
`build_ratio_panel`): one row per canonical quarter, one entry per ratio. -/
def computeRatios (s : Sources) (t : String) : List PanelRow :=
  expectedQuarters.map (fun q => ⟨t, q, RATIOS.map (fun r => (r.name, ratioValue s r q))⟩)

/-! ### Winsorizer (`winsorize_panel`) -/

/-- Floor of a nonnegative rational, computable (`⌊x⌋` for `0 ≤ x`). -/
def posFloor (x : ℚ) : ℕ := x.num.toNat / x.den

/-- Linear interpolation into a sorted list at fractional position `pos`
(the `interpolation="linear"` scheme of `Series.quantile`: for position
`i + f` with `0 ≤ f < 1`, the value `s[i] + f*(s[i+1] - s[i])`). -/
def interpAt (s : List ℚ) (pos : ℚ) : ℚ :=
  let i := posFloor pos
  let a := s.getD i 0
  let b := s.getD (i + 1) a
  a + (pos - (i : ℚ)) * (b - a)

/-- `Series.quantile(q)`: NaN (here `none`) for an empty series of valid
values, else linear interpolation at position `q * (n - 1)` into the
sorted valid values. -/
def seriesQuantile (q : ℚ) (xs : List ℚ) : Option ℚ :=
  if xs.isEmpty then none
  else some (interpAt (List.insertionSort (· ≤ ·) xs) (q * ((xs.length : ℚ) - 1)))

/-- `Series.clip(lower, upper)` on one value; a `none` bound (NaN
quantile of an all-missing column) imposes no constraint, as in pandas. -/
def clipQ (v : ℚ) (lo hi : Option ℚ) : ℚ :=
  let v1 := match lo with
    | some l => max v l
    | none => v
  match hi with
  | some h => min v1 h
  | none => v1

/-- The value of one ratio column in one panel row (`panel[col]`
restricted to that row); `none` when the column is missing or NaN. -/
def colValue (row : PanelRow) (col : String) : Option ℚ :=
  (row.values.lookup col).join

/-- The pooled non-missing values of one ratio column across the whole
panel — all companies and all quarters together (what
`series.quantile` gets to see after NaN exclusion). -/
def colPool (panel : List PanelRow) (col : String) : List ℚ :=
  (panel.map (fun r => colValue r col)).reduceOption

/-- Clip the `col` entry of one row to the given bounds, leaving every
other column untouched. -/
def clipRow (col : String) (lo hi : Option ℚ) (row : PanelRow) : PanelRow :=
  ⟨row.ticker, row.quarter,
    row.values.map (fun p =>
      if p.1 = col then (p.1, p.2.map (fun v => clipQ v lo hi)) else p)⟩

/-- `_clip_col` applied to one column of the panel:
`panel[col] = panel[col].clip(panel[col].quantile(lo), panel[col].quantile(hi))`. -/
def clipCol (col : String) (panel : List PanelRow) : List PanelRow :=
  let lo := seriesQuantile WINSORIZE_QUANTILES.1 (colPool panel col)
  let hi := seriesQuantile WINSORIZE_QUANTILES.2 (colPool panel col)
  panel.map (clipRow col lo hi)

/-- `winsorize_panel`: clip each ratio column, in `RATIO_NAMES` order, to
the 1st/99th percentile of that entire column (all company-quarters
pooled). -/
def winsorizePanel (panel : List PanelRow) : List PanelRow :=
  RATIO_NAMES.foldl (fun p col => clipCol col p) panel

/-! ### Panel Assembler (`build_ratio_panel`) -/

/-- Load the three statement tables of one ticker.  `files` models the
filesystem: `none` is a missing CSV, `some recs` its parsed records. -/
def mkSources (files : Src → String → Option (List RawRec)) (t : String) : Sources :=
  ⟨(files .income t).bind loadSource,
   (files .balance t).bind loadSource,
   (files .cashflow t).bind loadSource⟩

/-- The tickers passing the sector filter and the Completeness Gate. -/
def completeTickers (tickers : List String) (smap : List (String × String))
    (files : Src → String → Option (List RawRec)) : List String :=
  (filterSectors tickers smap).filter (fun t => isComplete (mkSources files t))

/-- The message of the `RuntimeError` raised when no ticker survives. -/
def NO_TICKER_MSG : String :=
  "Kein einziger Ticker hat den Vollständigkeitsfilter bestanden!"

/-- `build_ratio_panel`: sector filter → completeness filter → ratios →
concatenation → winsorization.  `Except.error` models the
`RuntimeError` raised when no ticker survives. -/
def buildRatioPanel (tickers : List String) (smap : List (String × String))
    (files : Src → String → Option (List RawRec)) : Except String (List PanelRow) :=
  let survivors := completeTickers tickers smap files
  if survivors.isEmpty then
    .error NO_TICKER_MSG
  else
    .ok (winsorizePanel ((survivors.map (fun t => computeRatios (mkSources files t) t)).flatten))

/-! ### AR(1) Estimator (`ar_model.py`) -/

/-- `series.diff(DIFF_ORDER)` for `DIFF_ORDER = 1`: leading NaN, then
`Y(t) - Y(t-1)` with NaN whenever either operand is NaN. -/
def seriesDiff (ys : List (Option ℚ)) : List (Option ℚ) :=
  none :: ((ys.drop 1).zip ys).map
    (fun p => p.1.bind (fun a => p.2.map (fun b => a - b)))

/-- `.dropna()` on a value list. -/
def dropna (ys : List (Option ℚ)) : List ℚ := ys.reduceOption

/-- Bessel-corrected sample variance (`std(ddof=1)` squared).  Callers
only evaluate it on lists of length ≥ 4, so the guard for short lists is
never relevant. -/
def sampleVar (xs : List ℚ) : ℚ :=
  if xs.length ≤ 1 then 0
  else
    let m := xs.sum / (xs.length : ℚ)
    ((xs.map (fun v => (v - m) ^ 2)).sum) / ((xs.length : ℚ) - 1)

/-- The statistics extracted from a fitted OLS model
(`model.params`, `model.bse`, `model.pvalues`, `model.rsquared`). -/
structure OLSOut where
  c : ℚ
  phi1 : ℚ
  phi1_se : ℚ
  phi1_pval : ℚ
  r_squared : ℚ
deriving DecidableEq

/-- An OLS backend: given response `y` and regressor `x` (an intercept is
always added), return the fit, or `none` when the fit fails numerically
(the `try ... except` around `sm.OLS(y, X).fit()`). -/
abbrev FitFn := List ℚ → List ℚ → Option OLSOut

/-- A concrete OLS backend: the exact closed-form simple-regression
solution, failing when the centred regressor has no variation (singular
design).  Standard error and p-value require square roots and the
t-distribution, which the verified properties never consult; they are
reported as `0`. -/
def olsFit : FitFn := fun y x =>
  if y.length = 0 then none
  else
    let n : ℚ := (y.length : ℚ)
    let xbar := x.sum / n
    let ybar := y.sum / n
    let sxx := (x.map (fun v => (v - xbar) ^ 2)).sum
    if sxx = 0 then none
    else
      let phi1 := ((x.zip y).map (fun p => (p.1 - xbar) * (p.2 - ybar))).sum / sxx
      let c := ybar - phi1 * xbar
      let sst := (y.map (fun v => (v - ybar) ^ 2)).sum
      let ssr := ((x.zip y).map (fun p => (p.2 - (c + phi1 * p.1)) ^ 2)).sum
      some ⟨c, phi1, 0, 0, if sst = 0 then 0 else 1 - ssr / sst⟩

/-- The record emitted per (ticker, ratio).  `sigma_diff` of the source is
the square root of `varDiff` (the comparison `sigma_diff < 1e-15` is
embedded as `varDiff < 1e-30`, exactly equivalent for a nonnegative
variance); `half_life` is the derived function `halfLife` of `phi1`. -/
structure AR1Estimate where
  phi1 : ℚ
  phi1_se : ℚ
  phi1_pval : ℚ
  c : ℚ
  r_squared : ℚ
  varDiff : ℚ
  n_obs : ℕ
deriving DecidableEq

/-- `_fit_ar1_on_diff`: difference, drop NaN, check the minimum-length
and degenerate-variance gates, build the lagged regression
(`y = diff.iloc[AR_ORDER:]`, `x = diff.shift(AR_ORDER).iloc[AR_ORDER:]`;
after `dropna` the series has no interior NaN, so the `notna` mask only
ever removes what `iloc` already removed), and fit. -/
def fitAR1OnDiff (fit : FitFn) (series : List (Option ℚ)) : Option AR1Estimate :=
  let d := dropna (seriesDiff series)
  if d.length < AR_ORDER + 3 then none
  else
    let varDiff := sampleVar d
    if varDiff < 1 / 10 ^ 30 then none
    else
      let y := d.drop AR_ORDER
      let x := d.take (d.length - AR_ORDER)
      if y.length < AR_ORDER + 3 then none
      else
        match fit y x with
        | none => none
        | some o => some ⟨o.phi1, o.phi1_se, o.phi1_pval, o.c, o.r_squared, varDiff, y.length⟩

/-- Half-life policy: `log(0.5) / log(|phi1|)` when `0 < phi1 < 1`, NaN
("not applicable", here `none`) otherwise. -/
noncomputable def halfLife (phi1 : ℚ) : Option ℝ :=
  if 0 < phi1 ∧ phi1 < 1 then
    some (Real.log (1 / 2) / Real.log |(phi1 : ℝ)|)
  else none

/-- The level series of one (ticker, ratio) pair, in quarter order
(`panel[panel["ticker"] == t].set_index("quarter").sort_index()[ratio]`). -/
def seriesOf (panel : List PanelRow) (t ratio : String) : List (Option ℚ) :=
  (sortByKey (fun r => qKey r.quarter) (panel.filter (fun r => r.ticker == t))).map
    (fun r => colValue r ratio)

/-- The estimator body for one (ticker, ratio) pair, including the
raw-series minimum-observation gate of `estimate_ar_features`. -/
def estimatePair (fit : FitFn) (panel : List PanelRow) (t ratio : String) :
    Option AR1Estimate :=
  let series := seriesOf panel t ratio
  if (series.reduceOption).length < AR_ORDER + DIFF_ORDER + 3 then none
  else fitAR1OnDiff fit series

/-- `estimate_ar_features`: iterate over the lexically sorted distinct
tickers and, per ticker, over `RATIO_NAMES`; pairs whose estimation was
skipped are simply absent. -/
def estimateARFeatures (fit : FitFn) (panel : List PanelRow) :
    List (String × String × AR1Estimate) :=
  (List.insertionSort (· ≤ ·) ((panel.map (·.ticker)).dedup)).flatMap
    (fun t => RATIO_NAMES.filterMap
      (fun ratio => (estimatePair fit panel t ratio).map (fun e => (t, ratio, e))))

/-- One panel row of the shared single-ticker witness panels: ratio
column "ROA" carries the value, the six others are missing. -/
def rowW (q : Quarter) (v : Option ℚ) : PanelRow :=
  ⟨"T", q, [("ROA", v), ("ROE", none), ("EBIT_margin", none), ("fcf_margin", none),
            ("current_ratio", none), ("debt_to_equity", none), ("equity_ratio", none)]⟩

/-- A six-quarter panel whose ROA series differences to the exactly
oscillating series `1, -1/2, 1/4, -1/8, 1/16`. -/
def panelW3 : List PanelRow :=
  [rowW (2000, 1) (some 0), rowW (2000, 2) (some 1), rowW (2000, 3) (some (1/2)),
   rowW (2000, 4) (some (3/4)), rowW (2001, 1) (some (5/8)), rowW (2001, 2) (some (11/16))]

/-- The estimate the closed-form OLS backend produces on `panelW3`. -/
def arEstW : AR1Estimate := ⟨-(1/2), 0, 0, 0, 1, 99/320, 4⟩

/-- The two-row, one-column counterexample panel: ROA values 0 and 100. -/
def panelCex : List PanelRow := [rowW (2000, 1) (some 0), rowW (2000, 2) (some 100)]

/-- Field values of the 100-quarter witness records: every column any of
the seven ratios consults carries the value 1. -/
def rowFields : Row :=
  [("netIncome", some 1), ("totalAssets", some 1), ("totalStockholderEquity", some 1),
   ("ebit", some 1), ("totalRevenue", some 1), ("freeCashFlow", some 1),
   ("totalCurrentAssets", some 1), ("totalCurrentLiabilities", some 1),
   ("shortLongTermDebtTotal", some 1)]

/-- One dated record per canonical quarter (month `3q - 2` falls in
quarter `q`). -/
def recsW : List RawRec :=
  expectedQuarters.map (fun q => ⟨some ⟨q.1, 3 * q.2 - 2, 1⟩, rowFields⟩)

/-- A filesystem with the complete 100-quarter history for every ticker
and statement type. -/
def filesW : Src → String → Option (List RawRec) := fun _ _ => some recsW

/-! ## Claim C2: the Completeness Gate -/

/-- Characterisation of the per-source completeness check. -/
lemma srcComplete_iff (o : Option SourceTable) :
    srcComplete o = true ↔
      ∃ t, o = some t ∧ ∀ q ∈ expectedQuarters, q ∈ t.map Prod.fst := by
  cases o with
  | none => simp [srcComplete]
  | some t =>
    simp only [srcComplete, List.all_eq_true, List.contains, List.elem_eq_mem,
      decide_eq_true_eq, Option.some.injEq]
    constructor
    · intro h
      exact ⟨t, rfl, h⟩
    · rintro ⟨t', ht', h⟩
      subst ht'
      exact h

/-- C2: `_is_complete` returns true iff all three statement tables are
present (not the absent signal) and every one of the 100 canonical
quarters has a row in each of the three tables. -/
theorem isComplete_iff (s : Sources) :
    isComplete s = true ↔
      ∃ ti tb tc, s.income = some ti ∧ s.balance = some tb ∧ s.cashflow = some tc ∧
        ∀ q ∈ expectedQuarters,
          q ∈ ti.map Prod.fst ∧ q ∈ tb.map Prod.fst ∧ q ∈ tc.map Prod.fst := by
  rw [isComplete, Bool.and_eq_true, Bool.and_eq_true,
    srcComplete_iff, srcComplete_iff, srcComplete_iff]
  constructor
  · rintro ⟨⟨⟨ti, hi, h1⟩, tb, hb, h2⟩, tc, hc, h3⟩
    exact ⟨ti, tb, tc, hi, hb, hc, fun q hq => ⟨h1 q hq, h2 q hq, h3 q hq⟩⟩
  · rintro ⟨ti, tb, tc, hi, hb, hc, h⟩
    exact ⟨⟨⟨ti, hi, fun q hq => (h q hq).1⟩, tb, hb, fun q hq => (h q hq).2.1⟩,
      tc, hc, fun q hq => (h q hq).2.2⟩

/-- C2 witness: a concrete complete source triple passes the gate. -/
theorem isComplete_iff_witness :
    isComplete ⟨some (expectedQuarters.map (fun q => (q, ([] : Row)))),
                some (expectedQuarters.map (fun q => (q, ([] : Row)))),
                some (expectedQuarters.map (fun q => (q, ([] : Row))))⟩ = true := by
  refine (isComplete_iff _).mpr ⟨_, _, _, rfl, rfl, rfl, ?_⟩
  intro q hq
  refine ⟨?_, ?_, ?_⟩ <;>
    · rw [List.map_map]
      simpa using hq

/-! ## Claim C10: the sector filter -/

/-- C10: a ticker with no entry in the sector map is always retained by
`filter_sectors`; only tickers whose mapped sector is an excluded label
are removed; and the retained tickers keep their relative order (the
result is a sublist of the input). -/
theorem filterSectors_spec (tickers : List String) (smap : List (String × String)) :
    (∀ t ∈ tickers, smap.lookup t = none → t ∈ filterSectors tickers smap) ∧
    (∀ t ∈ tickers, t ∉ filterSectors tickers smap →
        ∃ sec, smap.lookup t = some sec ∧ sec ∈ EXCLUDED_SECTORS) ∧
    (filterSectors tickers smap).Sublist tickers := by
  refine ⟨?_, ?_, List.filter_sublist tickers⟩
  · intro t ht hnone
    simp only [filterSectors, List.mem_filter, ht, true_and, hnone, Option.getD_none]
    simp [List.contains, List.elem_eq_mem, EXCLUDED_SECTORS]
  · intro t ht hnotin
    simp only [filterSectors, List.mem_filter, ht, true_and, Bool.not_eq_true',
      Bool.not_eq_false] at hnotin
    rcases h : smap.lookup t with _ | sec
    · rw [h, Option.getD_none] at hnotin
      simp [List.contains, List.elem_eq_mem, EXCLUDED_SECTORS] at hnotin
    · refine ⟨sec, rfl, ?_⟩
      rw [h, Option.getD_some] at hnotin
      simpa [List.contains, List.elem_eq_mem] using hnotin

/-- C10 witness: an unmapped ticker is kept; a ticker mapped to "Banks"
is removed only because its sector is excluded; order is preserved. -/
theorem filterSectors_spec_witness :
    "AAA" ∈ filterSectors ["AAA", "BBB"] [("BBB", "Banks")] ∧
    (filterSectors ["AAA", "BBB"] [("BBB", "Banks")]).Sublist ["AAA", "BBB"] :=
  ⟨(filterSectors_spec ["AAA", "BBB"] [("BBB", "Banks")]).1 "AAA" (by decide) rfl,
   (filterSectors_spec ["AAA", "BBB"] [("BBB", "Banks")]).2.2⟩

/-! ## Claim C4: zero denominators -/

/-- C4: for any ratio and quarter, an exact-zero denominator yields a
missing value (the total function returns `none`, modelling
`den.replace(0, np.nan)` — no exception, no infinity), and whenever both
fields are present with a nonzero denominator the value is the quotient. -/
theorem ratioValue_zero_den (s : Sources) (r : RatioDef) (q : Quarter) :
    (fieldAt s r.denominator_src q r.denominator_col = some 0 →
      ratioValue s r q = none) ∧
    (∀ n d, fieldAt s r.numerator_src q r.numerator_col = some n →
      fieldAt s r.denominator_src q r.denominator_col = some d → d ≠ 0 →
      ratioValue s r q = some (n / d)) := by
  constructor
  · intro hden
    unfold ratioValue
    rw [hden]
    cases h : fieldAt s r.numerator_src q r.numerator_col with
    | none => rfl
    | some n =>
        show (if (0 : ℚ) = 0 then none else some (n / 0)) = none
        rw [if_pos rfl]
  · intro n d hnum hden hd
    unfold ratioValue
    rw [hnum, hden]
    show (if d = 0 then none else some (n / d)) = some (n / d)
    rw [if_neg hd]

/-- C4 witness: for a concrete source pair, a zero `totalAssets` yields a
missing ROA while a nonzero one yields the quotient. -/
theorem ratioValue_zero_den_witness :
    ratioValue
        ⟨some [((2000, 1), [("netIncome", some 6)]), ((2000, 2), [("netIncome", some 6)])],
         some [((2000, 1), [("totalAssets", some 0)]), ((2000, 2), [("totalAssets", some 2)])],
         none⟩
        ⟨"ROA", "Return on Assets", "Profitabilität",
          "netIncome", .income, "totalAssets", .balance⟩ (2000, 1) = none ∧
    ratioValue
        ⟨some [((2000, 1), [("netIncome", some 6)]), ((2000, 2), [("netIncome", some 6)])],
         some [((2000, 1), [("totalAssets", some 0)]), ((2000, 2), [("totalAssets", some 2)])],
         none⟩
        ⟨"ROA", "Return on Assets", "Profitabilität",
          "netIncome", .income, "totalAssets", .balance⟩ (2000, 2) = some (6 / 2) :=
  ⟨(ratioValue_zero_den _ _ _).1 rfl,
   (ratioValue_zero_den _ _ _).2 6 2 rfl rfl (by norm_num)⟩

/-! ## Claim C9: fatal only when zero tickers survive -/

/-- C9: `build_ratio_panel` raises the fatal error exactly when zero
tickers survive the sector and completeness filters, and otherwise
produces a panel; no individual disqualification is fatal by itself. -/
theorem buildRatioPanel_error_iff (tickers : List String) (smap : List (String × String))
    (files : Src → String → Option (List RawRec)) :
    (buildRatioPanel tickers smap files = .error NO_TICKER_MSG ↔
      completeTickers tickers smap files = []) ∧
    ((buildRatioPanel tickers smap files).isOk = true ↔
      completeTickers tickers smap files ≠ []) := by
  rcases h : completeTickers tickers smap files with _ | ⟨t, ts⟩
  · constructor
    · exact iff_of_true (by simp [buildRatioPanel, h]) rfl
    · refine iff_of_false ?_ (by simp)
      simp [buildRatioPanel, h, Except.isOk, Except.toBool]
  · constructor
    · refine iff_of_false ?_ (by simp)
      simp [buildRatioPanel, h]
    · exact iff_of_true (by simp [buildRatioPanel, h, Except.isOk, Except.toBool]) (by simp)

/-- C9 witness: with no tickers at all, the pipeline fails fatally. -/
theorem buildRatioPanel_error_iff_witness :
    buildRatioPanel [] [] (fun _ _ => none) = .error NO_TICKER_MSG :=
  (buildRatioPanel_error_iff [] [] (fun _ _ => none)).1.mpr rfl

/-! ## Claim C3: the half-life policy -/

/-- C3: for every estimate the AR(1) estimator emits, the half-life is
`ln(0.5)/ln(|phi1|)` exactly when `0 < phi1 < 1`, is marked not
applicable (`none`) for every other `phi1`, and is never negative. -/
theorem halfLife_policy (fit : FitFn) (panel : List PanelRow) (t ratio : String)
    (e : AR1Estimate) (hmem : (t, ratio, e) ∈ estimateARFeatures fit panel) :
    (0 < e.phi1 ∧ e.phi1 < 1 →
      halfLife e.phi1 = some (Real.log (1 / 2) / Real.log |(e.phi1 : ℝ)|)) ∧
    (¬(0 < e.phi1 ∧ e.phi1 < 1) → halfLife e.phi1 = none) ∧
    (∀ hl, halfLife e.phi1 = some hl → 0 < hl) := by
  refine ⟨fun h => by rw [halfLife, if_pos h], fun h => by rw [halfLife, if_neg h], ?_⟩
  intro hl h
  rw [halfLife] at h
  split at h
  · rename_i hcond
    rcases h with ⟨⟩
    have h0 : (0 : ℝ) < (e.phi1 : ℝ) := by exact_mod_cast hcond.1
    have h1 : ((e.phi1 : ℝ)) < 1 := by exact_mod_cast hcond.2
    have habs : |(e.phi1 : ℝ)| = (e.phi1 : ℝ) := abs_of_pos h0
    rw [habs]
    exact div_pos_of_neg_of_neg (Real.log_neg (by norm_num) (by norm_num))
      (Real.log_neg h0 h1)
  · exact absurd h (by simp)

set_option maxRecDepth 100000 in
/-- C3 witness: the estimator emits `phi1 = -1/2` on the oscillating
witness panel, and the half-life of that estimate is not applicable. -/
theorem halfLife_policy_witness :
    ("T", "ROA", arEstW) ∈ estimateARFeatures olsFit panelW3 ∧
      halfLife arEstW.phi1 = none :=
  ⟨by with_unfolding_all decide,
   (halfLife_policy olsFit panelW3 "T" "ROA" arEstW (by with_unfolding_all decide)).2.1
     (by rw [show arEstW.phi1 = -(1/2) from rfl]; norm_num)⟩

/-! ## Claim C7: the estimator's skip conditions -/

/-- `_fit_ar1_on_diff` produces an estimate iff the differenced series is
long enough, its variance is non-degenerate, the aligned regression
sample is long enough, and the OLS backend succeeds. -/
lemma fitAR1OnDiff_some_iff (fit : FitFn) (series : List (Option ℚ)) :
    (∃ e, fitAR1OnDiff fit series = some e) ↔
      (AR_ORDER + 3 ≤ (dropna (seriesDiff series)).length ∧
       1 / 10 ^ 30 ≤ sampleVar (dropna (seriesDiff series)) ∧
       AR_ORDER + 3 ≤ ((dropna (seriesDiff series)).drop AR_ORDER).length ∧
       fit ((dropna (seriesDiff series)).drop AR_ORDER)
         ((dropna (seriesDiff series)).take ((dropna (seriesDiff series)).length - AR_ORDER))
         ≠ none) := by
  simp only [fitAR1OnDiff]
  split_ifs with h1 h2 h3
  · exact iff_of_false (by simp) (fun h => absurd h.1 (not_le.mpr h1))
  · exact iff_of_false (by simp) (fun h => absurd h.2.1 (not_le.mpr h2))
  · exact iff_of_false (by simp) (fun h => absurd h.2.2.1 (not_le.mpr h3))
  · rw [not_lt] at h1 h2 h3
    cases hfit : fit ((dropna (seriesDiff series)).drop AR_ORDER)
        ((dropna (seriesDiff series)).take ((dropna (seriesDiff series)).length - AR_ORDER)) with
    | none => exact iff_of_false (by simp) (fun h => h.2.2.2 rfl)
    | some o => exact iff_of_true ⟨_, rfl⟩ ⟨h1, h2, h3, Option.some_ne_none o⟩

/-- The per-pair estimator produces an estimate iff the raw series has
enough non-missing values and `_fit_ar1_on_diff` succeeds. -/
lemma estimatePair_some_iff (fit : FitFn) (panel : List PanelRow) (t ratio : String) :
    (∃ e, estimatePair fit panel t ratio = some e) ↔
      (AR_ORDER + DIFF_ORDER + 3 ≤ ((seriesOf panel t ratio).reduceOption).length ∧
       AR_ORDER + 3 ≤ (dropna (seriesDiff (seriesOf panel t ratio))).length ∧
       1 / 10 ^ 30 ≤ sampleVar (dropna (seriesDiff (seriesOf panel t ratio))) ∧
       AR_ORDER + 3 ≤ ((dropna (seriesDiff (seriesOf panel t ratio))).drop AR_ORDER).length ∧
       fit ((dropna (seriesDiff (seriesOf panel t ratio))).drop AR_ORDER)
         ((dropna (seriesDiff (seriesOf panel t ratio))).take
           ((dropna (seriesDiff (seriesOf panel t ratio))).length - AR_ORDER)) ≠ none) := by
  simp only [estimatePair]
  split_ifs with h
  · exact iff_of_false (by simp) (fun hc => absurd hc.1 (not_le.mpr h))
  · rw [not_lt] at h
    rw [fitAR1OnDiff_some_iff]
    exact ⟨fun hc => ⟨h, hc⟩, fun hc => hc.2⟩

/-- C7: a (ticker, ratio) pair appears in the feature table iff the
ticker occurs in the panel, the ratio is one of the seven, and none of
the skip conditions fires: at least `AR_ORDER + DIFF_ORDER + 3 = 5`
non-missing raw values, at least `AR_ORDER + 3 = 4` observations after
differencing and again after alignment, a differenced-series variance of
at least `1e-30` (i.e. a standard deviation of at least `1e-15`), and a
numerically successful OLS fit.  The estimator is a total function:
skipped pairs are merely absent, no error is raised. -/
theorem estimator_skip_iff (fit : FitFn) (panel : List PanelRow) (t ratio : String) :
    (∃ e, (t, ratio, e) ∈ estimateARFeatures fit panel) ↔
      (t ∈ panel.map (·.ticker) ∧ ratio ∈ RATIO_NAMES ∧
       AR_ORDER + DIFF_ORDER + 3 ≤ ((seriesOf panel t ratio).reduceOption).length ∧
       AR_ORDER + 3 ≤ (dropna (seriesDiff (seriesOf panel t ratio))).length ∧
       1 / 10 ^ 30 ≤ sampleVar (dropna (seriesDiff (seriesOf panel t ratio))) ∧
       AR_ORDER + 3 ≤ ((dropna (seriesDiff (seriesOf panel t ratio))).drop AR_ORDER).length ∧
       fit ((dropna (seriesDiff (seriesOf panel t ratio))).drop AR_ORDER)
         ((dropna (seriesDiff (seriesOf panel t ratio))).take
           ((dropna (seriesDiff (seriesOf panel t ratio))).length - AR_ORDER)) ≠ none) := by
  constructor
  · rintro ⟨e, he⟩
    rw [estimateARFeatures] at he
    simp only [List.mem_flatMap, List.mem_filterMap, Option.map_eq_some'] at he
    obtain ⟨t', ht', r, hr, e', he', heq⟩ := he
    simp only [Prod.mk.injEq] at heq
    obtain ⟨rfl, rfl, rfl⟩ := heq
    refine ⟨?_, hr, (estimatePair_some_iff fit panel t' r).mp ⟨e', he'⟩⟩
    exact List.mem_dedup.mp ((List.mem_insertionSort _).mp ht')
  · rintro ⟨ht, hr, hc⟩
    obtain ⟨e, he⟩ := (estimatePair_some_iff fit panel t ratio).mpr hc
    refine ⟨e, ?_⟩
    rw [estimateARFeatures]
    simp only [List.mem_flatMap, List.mem_filterMap, Option.map_eq_some']
    exact ⟨t, (List.mem_insertionSort _).mpr (List.mem_dedup.mpr ht), ratio, hr, e, he, rfl⟩

set_option maxRecDepth 100000 in
/-- C7 witness: on the oscillating witness panel no skip condition
fires for ("T", "ROA"), so the pair appears in the feature table. -/
theorem estimator_skip_iff_witness :
    ∃ e, ("T", "ROA", e) ∈ estimateARFeatures olsFit panelW3 :=
  (estimator_skip_iff olsFit panelW3 "T" "ROA").mpr
    ⟨by with_unfolding_all decide, by with_unfolding_all decide,
     by with_unfolding_all decide, by with_unfolding_all decide,
     by with_unfolding_all decide, by with_unfolding_all decide,
     by with_unfolding_all decide⟩

/-! ## Claim C8: the Quarter Aligner -/

lemma sortByKey_sorted {α : Type} (key : α → ℕ) (l : List α) :
    (sortByKey key l).Sorted (fun a b => key a ≤ key b) := by
  haveI : IsTotal α (fun a b => key a ≤ key b) := ⟨fun a b => Nat.le_total _ _⟩
  haveI : IsTrans α (fun a b => key a ≤ key b) := ⟨fun a b c hab hbc => Nat.le_trans hab hbc⟩
  exact List.sorted_insertionSort _ l

lemma sortByKey_perm {α : Type} (key : α → ℕ) (l : List α) :
    List.Perm (sortByKey key l) l :=
  List.perm_insertionSort _ l

lemma mem_sortByKey {α : Type} {key : α → ℕ} {l : List α} {x : α} :
    x ∈ sortByKey key l ↔ x ∈ l :=
  (sortByKey_perm key l).mem_iff

lemma keepLastByKey_subset {α κ : Type} [DecidableEq κ] (key : α → κ) :
    ∀ (l : List α) (x : α), x ∈ keepLastByKey key l → x ∈ l
  | [], x, hx => by simp [keepLastByKey] at hx
  | a :: t, x, hx => by
      rw [keepLastByKey] at hx
      split_ifs at hx with hcond
      · exact List.mem_cons_of_mem a (keepLastByKey_subset key t x hx)
      · rcases List.mem_cons.mp hx with rfl | hx'
        · exact List.mem_cons_self _ _
        · exact List.mem_cons_of_mem a (keepLastByKey_subset key t x hx')

/-- In a `Pairwise R` list, any element kept by `keepLastByKey` is
`R`-above every other element of the list sharing its key. -/
lemma keepLastByKey_rel {α κ : Type} [DecidableEq κ] (key : α → κ)
    {R : α → α → Prop} :
    ∀ {l : List α}, l.Pairwise R → ∀ {x : α}, x ∈ keepLastByKey key l →
      ∀ y ∈ l, key y = key x → y = x ∨ R y x := by
  intro l
  induction l with
  | nil => intro _ x hx; simp [keepLastByKey] at hx
  | cons a t ih =>
      intro hp x hx y hy hk
      have ha : ∀ z ∈ t, R a z := (List.pairwise_cons.mp hp).1
      have hp' : t.Pairwise R := (List.pairwise_cons.mp hp).2
      rw [keepLastByKey] at hx
      split_ifs at hx with hcond
      · rcases List.mem_cons.mp hy with rfl | hy'
        · exact Or.inr (ha x (keepLastByKey_subset key t x hx))
        · exact ih hp' hx y hy' hk
      · rcases List.mem_cons.mp hx with rfl | hx'
        · rcases List.mem_cons.mp hy with rfl | hy'
          · exact Or.inl rfl
          · exact absurd (List.any_eq_true.mpr ⟨y, hy', by simp [hk]⟩) hcond
        · rcases List.mem_cons.mp hy with rfl | hy'
          · exact Or.inr (ha x (keepLastByKey_subset key t x hx'))
          · exact ih hp' hx' y hy' hk

/-- `keepLastByKey` leaves at most one element per key. -/
lemma keepLastByKey_nodup_keys {α κ : Type} [DecidableEq κ] (key : α → κ) :
    ∀ (l : List α), (keepLastByKey key l).Pairwise (fun a b => key a ≠ key b)
  | [] => by simp [keepLastByKey]
  | a :: t => by
      rw [keepLastByKey]
      split_ifs with hcond
      · exact keepLastByKey_nodup_keys key t
      · refine List.Pairwise.cons ?_ (keepLastByKey_nodup_keys key t)
        intro b hb hkey
        exact hcond (List.any_eq_true.mpr
          ⟨b, keepLastByKey_subset key t b hb, by simp [hkey.symm]⟩)

/-- Every key of the input survives into `keepLastByKey`'s output. -/
lemma keepLastByKey_keys_surj {α κ : Type} [DecidableEq κ] (key : α → κ) :
    ∀ (l : List α), ∀ y ∈ l, ∃ x ∈ keepLastByKey key l, key x = key y
  | [], y, hy => by simp at hy
  | a :: t, y, hy => by
      rw [keepLastByKey]
      split_ifs with hcond
      · rcases List.mem_cons.mp hy with rfl | hy'
        · obtain ⟨z, hz, hkz⟩ := List.any_eq_true.mp hcond
          obtain ⟨x, hx, hkx⟩ := keepLastByKey_keys_surj key t z hz
          exact ⟨x, hx, by rw [hkx]; exact of_decide_eq_true hkz⟩
        · exact keepLastByKey_keys_surj key t y hy'
      · rcases List.mem_cons.mp hy with rfl | hy'
        · exact ⟨y, List.mem_cons_self _ _, rfl⟩
        · obtain ⟨x, hx, hkx⟩ := keepLastByKey_keys_surj key t y hy'
          exact ⟨x, List.mem_cons_of_mem a hx, hkx⟩

/-- Membership in `rangedRecs` from a parseable in-range record. -/
lemma mem_rangedRecs {recs : List RawRec} {r : RawRec} {d : Date}
    (hr : r ∈ recs) (hd : r.date = some d)
    (hy1 : YEAR_START ≤ d.y) (hy2 : d.y ≤ YEAR_END) :
    (d, r.fields) ∈ rangedRecs recs := by
  rw [rangedRecs, List.mem_filter]
  exact ⟨List.mem_filterMap.mpr ⟨r, hr, by rw [hd]; rfl⟩, by simp [hy1, hy2]⟩

/-- C8: every aligned row stems from a record with a parseable, in-range
date (unparseable dates are dropped); at most one row per calendar
quarter survives; the surviving row's date is maximal among the
parseable in-range records of its quarter (the latest filing supersedes
earlier ones); and every quarter with at least one parseable in-range
record is represented. -/
theorem alignQuarters_spec (recs : List RawRec) :
    (∀ p ∈ alignQuarters recs, ∃ r ∈ recs,
        r.date = some p.1 ∧ r.fields = p.2 ∧ YEAR_START ≤ p.1.y ∧ p.1.y ≤ YEAR_END) ∧
    ((alignQuarters recs).Pairwise (fun p p' => quarterOf p.1 ≠ quarterOf p'.1)) ∧
    (∀ p ∈ alignQuarters recs, ∀ r ∈ recs, ∀ d, r.date = some d →
        YEAR_START ≤ d.y → d.y ≤ YEAR_END → quarterOf d = quarterOf p.1 →
        dateKey d ≤ dateKey p.1) ∧
    (∀ r ∈ recs, ∀ d, r.date = some d → YEAR_START ≤ d.y → d.y ≤ YEAR_END →
        ∃ p ∈ alignQuarters recs, quarterOf p.1 = quarterOf d) := by
  refine ⟨?_, ?_, ?_, ?_⟩
  · intro p hp
    rw [alignQuarters] at hp
    have h1 : p ∈ rangedRecs recs :=
      mem_sortByKey.mp (keepLastByKey_subset _ _ _ (mem_sortByKey.mp hp))
    rw [rangedRecs, List.mem_filter] at h1
    obtain ⟨hmem, hrange⟩ := h1
    rw [parsedRecs, List.mem_filterMap] at hmem
    obtain ⟨r, hr, hmap⟩ := hmem
    rw [Option.map_eq_some'] at hmap
    obtain ⟨d, hd, hpair⟩ := hmap
    rw [Bool.and_eq_true, decide_eq_true_eq, decide_eq_true_eq] at hrange
    exact ⟨r, hr, by rw [hd, ← hpair], by rw [← hpair], hrange.1, hrange.2⟩
  · rw [alignQuarters]
    exact (keepLastByKey_nodup_keys _ _).perm (sortByKey_perm _ _).symm
      (fun h hba => h hba.symm)
  · intro p hp r hr d hd hy1 hy2 hq
    rw [alignQuarters] at hp
    have hpdedup := mem_sortByKey.mp hp
    have hmem : (d, r.fields) ∈ sortByKey (fun p => dateKey p.1) (rangedRecs recs) :=
      mem_sortByKey.mpr (mem_rangedRecs hr hd hy1 hy2)
    have hsorted := sortByKey_sorted (fun p : Date × Row => dateKey p.1) (rangedRecs recs)
    have hrel := keepLastByKey_rel (fun p : Date × Row => quarterOf p.1) hsorted hpdedup
      (d, r.fields) hmem hq
    rcases hrel with heq | hle
    · rw [← heq]
    · exact hle
  · intro r hr d hd hy1 hy2
    have hmem : (d, r.fields) ∈ sortByKey (fun p => dateKey p.1) (rangedRecs recs) :=
      mem_sortByKey.mpr (mem_rangedRecs hr hd hy1 hy2)
    obtain ⟨p, hp, hkp⟩ :=
      keepLastByKey_keys_surj (fun p : Date × Row => quarterOf p.1) _ _ hmem
    refine ⟨p, ?_, hkp⟩
    rw [alignQuarters]
    exact mem_sortByKey.mpr hp

/-- C8 witness: two filings in Q1 2020 (Feb 10 and Mar 5), one
unparseable date and one out-of-range record; the March filing is kept
and its date dominates the February one. -/
theorem alignQuarters_spec_witness :
    dateKey ⟨2020, 2, 10⟩ ≤ dateKey (⟨2020, 3, 5⟩ : Date) :=
  (alignQuarters_spec
      [⟨some ⟨2020, 2, 10⟩, [("a", some 1)]⟩, ⟨some ⟨2020, 3, 5⟩, [("a", some 2)]⟩,
       ⟨none, [("a", some 3)]⟩, ⟨some ⟨1999, 1, 1⟩, [("a", some 4)]⟩]).2.2.1
    (⟨2020, 3, 5⟩, [("a", some 2)]) (by decide)
    ⟨some ⟨2020, 2, 10⟩, [("a", some 1)]⟩ (by decide)
    ⟨2020, 2, 10⟩ rfl (by decide) (by decide) (by decide)

/-! ## Quantile and clipping lemmas (for the Winsorizer claims) -/

lemma posFloor_le {x : ℚ} (hx : 0 ≤ x) : (posFloor x : ℚ) ≤ x := by
  have hb : 0 < x.den := x.den_pos
  have hnum : ((x.num.toNat : ℤ) : ℚ) = (x.num : ℚ) := by
    exact_mod_cast congrArg (fun n : ℤ => (n : ℚ)) (Int.toNat_of_nonneg (Rat.num_nonneg.mpr hx))
  have hmul : (posFloor x : ℚ) * (x.den : ℚ) ≤ (x.num.toNat : ℚ) := by
    exact_mod_cast Nat.div_mul_le_self x.num.toNat x.den
  have hden : (0 : ℚ) < (x.den : ℚ) := by exact_mod_cast hb
  have : (posFloor x : ℚ) ≤ (x.num.toNat : ℚ) / (x.den : ℚ) :=
    (le_div_iff₀ hden).mpr hmul
  calc (posFloor x : ℚ) ≤ (x.num.toNat : ℚ) / (x.den : ℚ) := this
    _ = (x.num : ℚ) / (x.den : ℚ) := by
        push_cast at hnum ⊢
        rw [hnum]
    _ = x := Rat.num_div_den x

lemma lt_posFloor_succ {x : ℚ} (hx : 0 ≤ x) : x < (posFloor x : ℚ) + 1 := by
  have hb : 0 < x.den := x.den_pos
  have hnat : x.num.toNat < (x.num.toNat / x.den + 1) * x.den := by
    have h1 := Nat.div_add_mod x.num.toNat x.den
    have h2 := Nat.mod_lt x.num.toNat hb
    calc x.num.toNat = x.den * (x.num.toNat / x.den) + x.num.toNat % x.den := h1.symm
      _ < x.den * (x.num.toNat / x.den) + x.den := Nat.add_lt_add_left h2 _
      _ = (x.num.toNat / x.den + 1) * x.den := by ring
  have hden : (0 : ℚ) < (x.den : ℚ) := by exact_mod_cast hb
  have hnum : ((x.num.toNat : ℤ) : ℚ) = (x.num : ℚ) := by
    exact_mod_cast congrArg (fun n : ℤ => (n : ℚ)) (Int.toNat_of_nonneg (Rat.num_nonneg.mpr hx))
  have : (x.num.toNat : ℚ) / (x.den : ℚ) < (posFloor x : ℚ) + 1 := by
    rw [div_lt_iff₀ hden]
    exact_mod_cast hnat
  calc x = (x.num : ℚ) / (x.den : ℚ) := (Rat.num_div_den x).symm
    _ = (x.num.toNat : ℚ) / (x.den : ℚ) := by
        push_cast at hnum ⊢
        rw [hnum]
    _ < (posFloor x : ℚ) + 1 := this

lemma posFloor_mono {x y : ℚ} (hx : 0 ≤ x) (hxy : x ≤ y) : posFloor x ≤ posFloor y := by
  by_contra hcon
  rw [not_le] at hcon
  have h1 : (posFloor y : ℚ) + 1 ≤ (posFloor x : ℚ) := by exact_mod_cast hcon
  have h2 := lt_posFloor_succ (le_trans hx hxy)
  have h3 := posFloor_le hx
  linarith

lemma sorted_getD_mono {s : List ℚ} (hs : s.Sorted (· ≤ ·)) {i j : ℕ}
    (hij : i ≤ j) (hj : j < s.length) : s.getD i 0 ≤ s.getD j 0 := by
  have hi : i < s.length := lt_of_le_of_lt hij hj
  rw [s.getD_eq_getElem 0 hi, s.getD_eq_getElem 0 hj]
  exact hs.rel_get_of_le hij

/-- The upper interpolation node is at least the lower one (whatever the
out-of-range default resolves to). -/
lemma interp_nodes_le {s : List ℚ} (hs : s.Sorted (· ≤ ·)) (i : ℕ) :
    s.getD i 0 ≤ s.getD (i + 1) (s.getD i 0) := by
  rcases lt_or_le (i + 1) s.length with h | h
  · rw [s.getD_eq_getElem (s.getD i 0) h]
    rw [← s.getD_eq_getElem 0 h]
    exact sorted_getD_mono hs (Nat.le_succ i) h
  · rw [s.getD_eq_default _ h]

lemma posFloor_lt_length {s : List ℚ} {pos : ℚ} (h0 : 0 ≤ pos)
    (h1 : pos ≤ (s.length : ℚ) - 1) : posFloor pos < s.length := by
  have hfl := posFloor_le h0
  have : (posFloor pos : ℚ) ≤ (s.length : ℚ) - 1 := le_trans hfl h1
  have hlen : (posFloor pos : ℚ) + 1 ≤ (s.length : ℚ) := by linarith
  exact_mod_cast hlen

lemma interpAt_ge {s : List ℚ} (hs : s.Sorted (· ≤ ·)) {pos : ℚ} (h0 : 0 ≤ pos) :
    s.getD (posFloor pos) 0 ≤ interpAt s pos := by
  simp only [interpAt]
  have hfrac : 0 ≤ pos - (posFloor pos : ℚ) := sub_nonneg.mpr (posFloor_le h0)
  have hnode := interp_nodes_le hs (posFloor pos)
  nlinarith

lemma interpAt_le {s : List ℚ} (hs : s.Sorted (· ≤ ·)) {pos : ℚ} (h0 : 0 ≤ pos) :
    interpAt s pos ≤ s.getD (posFloor pos + 1) (s.getD (posFloor pos) 0) := by
  simp only [interpAt]
  have hfrac : pos - (posFloor pos : ℚ) ≤ 1 := by
    have := lt_posFloor_succ h0
    linarith
  have hnode := interp_nodes_le hs (posFloor pos)
  nlinarith

/-- Monotonicity of linear interpolation into a sorted list. -/
lemma interpAt_mono {s : List ℚ} (hs : s.Sorted (· ≤ ·)) {p1 p2 : ℚ}
    (h0 : 0 ≤ p1) (h12 : p1 ≤ p2) (h2 : p2 ≤ (s.length : ℚ) - 1) :
    interpAt s p1 ≤ interpAt s p2 := by
  have h0' : 0 ≤ p2 := le_trans h0 h12
  have hfl := posFloor_mono h0 h12
  rcases eq_or_lt_of_le hfl with heq | hlt
  · simp only [interpAt, ← heq]
    have hfr : p1 - (posFloor p1 : ℚ) ≤ p2 - (posFloor p1 : ℚ) := by linarith
    have hnode := interp_nodes_le hs (posFloor p1)
    nlinarith
  · have hi2 : posFloor p2 < s.length := posFloor_lt_length h0' h2
    have hstep1 : interpAt s p1 ≤ s.getD (posFloor p1 + 1) (s.getD (posFloor p1) 0) :=
      interpAt_le hs h0
    have hstep2 : s.getD (posFloor p1 + 1) (s.getD (posFloor p1) 0) ≤ s.getD (posFloor p2) 0 := by
      have hle : posFloor p1 + 1 < s.length := lt_of_le_of_lt hlt hi2
      rw [s.getD_eq_getElem (s.getD (posFloor p1) 0) hle, ← s.getD_eq_getElem 0 hle]
      exact sorted_getD_mono hs hlt hi2
    have hstep3 : s.getD (posFloor p2) 0 ≤ interpAt s p2 := interpAt_ge hs h0'
    exact le_trans hstep1 (le_trans hstep2 hstep3)

/-- Linear interpolation stays within any interval containing all list
values. -/
lemma interpAt_mem {s : List ℚ} (hs : s.Sorted (· ≤ ·)) {pos : ℚ}
    (h0 : 0 ≤ pos) (h1 : pos ≤ (s.length : ℚ) - 1) {lo hi : ℚ}
    (hall : ∀ x ∈ s, lo ≤ x ∧ x ≤ hi) :
    lo ≤ interpAt s pos ∧ interpAt s pos ≤ hi := by
  have hi0 : posFloor pos < s.length := posFloor_lt_length h0 h1
  have hmema : s.getD (posFloor pos) 0 ∈ s := by
    rw [s.getD_eq_getElem 0 hi0]
    exact s.getElem_mem hi0
  constructor
  · exact le_trans (hall _ hmema).1 (interpAt_ge hs h0)
  · refine le_trans (interpAt_le hs h0) ?_
    rcases lt_or_le (posFloor pos + 1) s.length with h | h
    · have hmemb : s.getD (posFloor pos + 1) (s.getD (posFloor pos) 0) ∈ s := by
        rw [s.getD_eq_getElem _ h]
        exact s.getElem_mem h
      exact (hall _ hmemb).2
    · rw [s.getD_eq_default _ h]
      exact (hall _ hmema).2

/-- Monotonicity of `Series.quantile` in the quantile level. -/
lemma seriesQuantile_mono {xs : List ℚ} {q1 q2 : ℚ} (h0 : 0 ≤ q1) (h12 : q1 ≤ q2)
    (h2 : q2 ≤ 1) {v1 v2 : ℚ} (hv1 : seriesQuantile q1 xs = some v1)
    (hv2 : seriesQuantile q2 xs = some v2) : v1 ≤ v2 := by
  rw [seriesQuantile] at hv1 hv2
  split_ifs at hv1 hv2 with hne
  rcases hv1 with ⟨⟩
  rcases hv2 with ⟨⟩
  have hlen : 1 ≤ xs.length := by
    rcases xs with _ | _
    · simp at hne
    · simp
  have hlenq : (1 : ℚ) ≤ (xs.length : ℚ) := by exact_mod_cast hlen
  have hsort : (List.insertionSort (· ≤ ·) xs).Sorted (· ≤ ·) :=
    List.sorted_insertionSort _ xs
  have hslen : (List.insertionSort (· ≤ ·) xs).length = xs.length :=
    (List.perm_insertionSort _ xs).length_eq
  apply interpAt_mono hsort
  · exact mul_nonneg h0 (by linarith)
  · exact mul_le_mul_of_nonneg_right h12 (by linarith)
  · rw [hslen]
    nlinarith

/-- `Series.quantile` stays within any interval containing all values. -/
lemma seriesQuantile_mem {xs : List ℚ} {q : ℚ} (h0 : 0 ≤ q) (h1 : q ≤ 1)
    {v : ℚ} (hv : seriesQuantile q xs = some v) {lo hi : ℚ}
    (hall : ∀ x ∈ xs, lo ≤ x ∧ x ≤ hi) : lo ≤ v ∧ v ≤ hi := by
  rw [seriesQuantile] at hv
  split_ifs at hv with hne
  rcases hv with ⟨⟩
  have hlen : 1 ≤ xs.length := by
    rcases xs with _ | _
    · simp at hne
    · simp
  have hlenq : (1 : ℚ) ≤ (xs.length : ℚ) := by exact_mod_cast hlen
  have hsort : (List.insertionSort (· ≤ ·) xs).Sorted (· ≤ ·) :=
    List.sorted_insertionSort _ xs
  have hslen : (List.insertionSort (· ≤ ·) xs).length = xs.length :=
    (List.perm_insertionSort _ xs).length_eq
  apply interpAt_mem hsort
  · exact mul_nonneg h0 (by linarith)
  · rw [hslen]
    nlinarith
  · intro x hx
    exact hall x ((List.perm_insertionSort _ xs).mem_iff.mp hx)

/-- Clipping to ordered bounds lands inside them. -/
lemma clipQ_mem {v lo hi : ℚ} (h : lo ≤ hi) :
    lo ≤ clipQ v (some lo) (some hi) ∧ clipQ v (some lo) (some hi) ≤ hi := by
  simp only [clipQ]
  constructor
  · exact le_min (le_max_right v lo) h
  · exact min_le_right _ hi

/-- Clipping a value of `[lo, hi]` to bounds inside `[lo, hi]` stays in
`[lo, hi]`, whatever the optional bounds are. -/
lemma clipQ_mem_outer {v : ℚ} {lo hi : ℚ} (hv1 : lo ≤ v) (hv2 : v ≤ hi)
    (lo' hi' : Option ℚ) (hlo' : ∀ l ∈ lo', lo ≤ l ∧ l ≤ hi)
    (hhi' : ∀ h ∈ hi', lo ≤ h ∧ h ≤ hi) :
    lo ≤ clipQ v lo' hi' ∧ clipQ v lo' hi' ≤ hi := by
  rcases lo' with _ | l <;> rcases hi' with _ | h <;> simp only [clipQ]
  · exact ⟨hv1, hv2⟩
  · have hh := hhi' h rfl
    exact ⟨le_min hv1 hh.1, min_le_of_right_le hh.2⟩
  · have hl := hlo' l rfl
    exact ⟨le_max_of_le_left hv1, max_le hv2 hl.2⟩
  · have hh := hhi' h rfl
    have hl := hlo' l rfl
    exact ⟨le_min (le_max_of_le_left hv1) hh.1, min_le_of_right_le hh.2⟩

/-! ## Column-wise structure of the Winsorizer -/

lemma join_map_map (o : Option (Option ℚ)) (g : ℚ → ℚ) :
    (o.map (Option.map g)).join = o.join.map g := by
  cases o <;> rfl

/-- Lookup after an update that rewrites only the entries keyed `col`. -/
lemma lookup_map_clip (l : Row) (col c : String) (f : Option ℚ → Option ℚ) :
    (l.map (fun p => if p.1 = col then (p.1, f p.2) else p)).lookup c =
      if c = col then (l.lookup c).map f else l.lookup c := by
  induction l with
  | nil => by_cases hc : c = col <;> simp [hc]
  | cons p rest ih =>
      obtain ⟨k, v⟩ := p
      rw [List.map_cons]
      have hhead : (if (k, v).1 = col then ((k, v).1, f (k, v).2) else (k, v)) =
          (k, if k = col then f v else v) := by
        by_cases hk : k = col <;> simp [hk]
      rw [hhead, List.lookup_cons, List.lookup_cons]
      by_cases hck : c = k
      · subst hck
        simp only [beq_self_eq_true, if_true]
        by_cases hc : c = col <;> simp [hc]
      · have hbeq : (c == k) = false := beq_eq_false_iff_ne.mpr hck
        simp only [hbeq, Bool.false_eq_true, if_false]
        exact ih

lemma colValue_clipRow (col c : String) (lo hi : Option ℚ) (row : PanelRow) :
    colValue (clipRow col lo hi row) c =
      if c = col then (colValue row c).map (fun v => clipQ v lo hi)
      else colValue row c := by
  simp only [colValue, clipRow]
  rw [lookup_map_clip]
  split_ifs
  · exact join_map_map _ _
  · rfl

lemma clipRow_keys (col : String) (lo hi : Option ℚ) (row : PanelRow) :
    (clipRow col lo hi row).values.map Prod.fst = row.values.map Prod.fst := by
  simp only [clipRow, List.map_map]
  apply List.map_congr_left
  intro p _
  by_cases h : p.1 = col <;> simp [h]

lemma clipCol_col_ne {col c : String} (hne : c ≠ col) (panel : List PanelRow) :
    (clipCol col panel).map (fun r => colValue r c) =
      panel.map (fun r => colValue r c) := by
  simp only [clipCol, List.map_map]
  apply List.map_congr_left
  intro r _
  simp only [Function.comp]
  rw [colValue_clipRow, if_neg hne]

lemma clipCol_col_eq (col : String) (panel : List PanelRow) :
    (clipCol col panel).map (fun r => colValue r col) =
      panel.map (fun r => (colValue r col).map (fun v =>
        clipQ v (seriesQuantile WINSORIZE_QUANTILES.1 (colPool panel col))
                (seriesQuantile WINSORIZE_QUANTILES.2 (colPool panel col)))) := by
  simp only [clipCol, List.map_map]
  apply List.map_congr_left
  intro r _
  simp only [Function.comp]
  rw [colValue_clipRow, if_pos rfl]

lemma clipCol_pool_ne {col c : String} (hne : c ≠ col) (panel : List PanelRow) :
    colPool (clipCol col panel) c = colPool panel c := by
  simp only [colPool]
  rw [clipCol_col_ne hne]

lemma foldl_clip_untouched :
    ∀ (cols : List String) (panel : List PanelRow) (c : String), c ∉ cols →
      (cols.foldl (fun p col => clipCol col p) panel).map (fun r => colValue r c) =
        panel.map (fun r => colValue r c)
  | [], _, _, _ => rfl
  | d :: rest, panel, c, hc => by
      rw [List.foldl_cons]
      have hne : c ≠ d := fun h => hc (h ▸ List.mem_cons_self d rest)
      rw [foldl_clip_untouched rest (clipCol d panel) c
        (fun h => hc (List.mem_cons_of_mem d h))]
      exact clipCol_col_ne hne panel

/-- Folding the per-column clip over a duplicate-free column list acts
on each listed column exactly once, with bounds computed from that
column of the panel as it was before any clipping of the column
(clipping other columns does not change this column's pool). -/
lemma foldl_clip_col :
    ∀ (cols : List String), cols.Nodup → ∀ (panel : List PanelRow) (c : String), c ∈ cols →
      (cols.foldl (fun p col => clipCol col p) panel).map (fun r => colValue r c) =
        panel.map (fun r => (colValue r c).map (fun v =>
          clipQ v (seriesQuantile WINSORIZE_QUANTILES.1 (colPool panel c))
                  (seriesQuantile WINSORIZE_QUANTILES.2 (colPool panel c))))
  | [], _, _, c, hc => absurd hc (List.not_mem_nil c)
  | d :: rest, hnd, panel, c, hc => by
      rw [List.foldl_cons]
      rcases List.mem_cons.mp hc with rfl | hcr
      · have hnotin : c ∉ rest := (List.nodup_cons.mp hnd).1
        rw [foldl_clip_untouched rest (clipCol c panel) c hnotin]
        exact clipCol_col_eq c panel
      · have hne : c ≠ d := fun h => (List.nodup_cons.mp hnd).1 (h ▸ hcr)
        rw [foldl_clip_col rest (List.nodup_cons.mp hnd).2 (clipCol d panel) c hcr]
        rw [clipCol_pool_ne hne]
        simp only [clipCol, List.map_map]
        apply List.map_congr_left
        intro r _
        simp only [Function.comp]
        rw [colValue_clipRow, if_neg hne]

/-- The winsorized value of each listed ratio column is the original
value clipped to the 1st/99th percentile of the column's pooled
pre-clip distribution. -/
lemma winsorizePanel_col (panel : List PanelRow) {col : String}
    (hcol : col ∈ RATIO_NAMES) :
    (winsorizePanel panel).map (fun r => colValue r col) =
      panel.map (fun r => (colValue r col).map (fun v =>
        clipQ v (seriesQuantile WINSORIZE_QUANTILES.1 (colPool panel col))
                (seriesQuantile WINSORIZE_QUANTILES.2 (colPool panel col)))) := by
  rw [winsorizePanel]
  exact foldl_clip_col RATIO_NAMES (by decide) panel col hcol

lemma mem_colPool {panel : List PanelRow} {col : String} {x : ℚ}
    (hx : x ∈ colPool panel col) : ∃ r ∈ panel, colValue r col = some x := by
  simp only [colPool] at hx
  rw [List.reduceOption_mem_iff] at hx
  obtain ⟨r, hr, hv⟩ := List.mem_map.mp hx
  exact ⟨r, hr, hv⟩

lemma colValue_mem_pool {panel : List PanelRow} {col : String} {r : PanelRow} {v : ℚ}
    (hr : r ∈ panel) (hv : colValue r col = some v) : v ∈ colPool panel col := by
  simp only [colPool]
  rw [List.reduceOption_mem_iff]
  exact List.mem_map.mpr ⟨r, hr, hv⟩

/-- Any non-missing winsorized value decomposes as a clip of an original
value of the same column, with the pooled pre-clip bounds. -/
lemma winsorize_col_mem {panel : List PanelRow} {col : String}
    (hcol : col ∈ RATIO_NAMES) {r : PanelRow} (hr : r ∈ winsorizePanel panel)
    {v : ℚ} (hv : colValue r col = some v) :
    ∃ r0 ∈ panel, ∃ v0, colValue r0 col = some v0 ∧
      v = clipQ v0 (seriesQuantile WINSORIZE_QUANTILES.1 (colPool panel col))
                   (seriesQuantile WINSORIZE_QUANTILES.2 (colPool panel col)) := by
  have hmem : some v ∈ (winsorizePanel panel).map (fun r => colValue r col) :=
    List.mem_map.mpr ⟨r, hr, hv⟩
  rw [winsorizePanel_col panel hcol] at hmem
  obtain ⟨r0, hr0, heq⟩ := List.mem_map.mp hmem
  rw [Option.map_eq_some'] at heq
  obtain ⟨v0, hv0, hclip⟩ := heq
  exact ⟨r0, hr0, v0, hv0, hclip.symm⟩

lemma winsorize_lo_le_hi {xs : List ℚ} {lo hi : ℚ}
    (hlo : seriesQuantile WINSORIZE_QUANTILES.1 xs = some lo)
    (hhi : seriesQuantile WINSORIZE_QUANTILES.2 xs = some hi) : lo ≤ hi :=
  seriesQuantile_mono (by norm_num [WINSORIZE_QUANTILES])
    (by norm_num [WINSORIZE_QUANTILES]) (by norm_num [WINSORIZE_QUANTILES]) hlo hhi

/-! ## Claim C5: pooled percentile bounds -/

/-- C5: for every panel and ratio column, the winsorized column equals
the original column clipped to a single pair of bounds — the 1st and
99th percentile of that entire column with all companies and quarters
pooled (the same bounds for every row, so neither per-company nor
per-quarter) — and every non-missing winsorized value lies within those
pre-clip bounds. -/
theorem winsorize_bounds (panel : List PanelRow) (col : String)
    (hcol : col ∈ RATIO_NAMES) :
    ((winsorizePanel panel).map (fun r => colValue r col) =
      panel.map (fun r => (colValue r col).map (fun v =>
        clipQ v (seriesQuantile WINSORIZE_QUANTILES.1 (colPool panel col))
                (seriesQuantile WINSORIZE_QUANTILES.2 (colPool panel col))))) ∧
    (∀ lo hi, seriesQuantile WINSORIZE_QUANTILES.1 (colPool panel col) = some lo →
      seriesQuantile WINSORIZE_QUANTILES.2 (colPool panel col) = some hi →
      ∀ r ∈ winsorizePanel panel, ∀ v, colValue r col = some v →
        lo ≤ v ∧ v ≤ hi) := by
  refine ⟨winsorizePanel_col panel hcol, ?_⟩
  intro lo hi hlo hhi r hr v hv
  obtain ⟨r0, hr0, v0, hv0, hclip⟩ := winsorize_col_mem hcol hr hv
  rw [hlo, hhi] at hclip
  rw [hclip]
  exact clipQ_mem (winsorize_lo_le_hi hlo hhi)

/-! ## Claim C6: winsorization is not idempotent -/

set_option maxRecDepth 100000 in
/-- C6 counterexample: on the two-row panel with ROA values 0 and 100
the first winsorization clips to the interpolated percentiles [1, 99],
and a second application clips again to [1.98, 98.02], changing values:
`winsorize_panel` is not idempotent. -/
theorem winsorize_not_idempotent :
    winsorizePanel (winsorizePanel panelCex) ≠ winsorizePanel panelCex := by
  with_unfolding_all decide

/-- C6 (amended): re-applying the winsorizer can change values, but every
non-missing value after the second application still lies within the
first application's pre-clip percentile bounds `[P1, P99]`. -/
theorem winsorize_second_application (panel : List PanelRow) {col : String}
    (hcol : col ∈ RATIO_NAMES) {lo hi : ℚ}
    (hlo : seriesQuantile WINSORIZE_QUANTILES.1 (colPool panel col) = some lo)
    (hhi : seriesQuantile WINSORIZE_QUANTILES.2 (colPool panel col) = some hi) :
    ∀ r ∈ winsorizePanel (winsorizePanel panel), ∀ v, colValue r col = some v →
      lo ≤ v ∧ v ≤ hi := by
  intro r hr v hv
  have hlohi : lo ≤ hi := winsorize_lo_le_hi hlo hhi
  obtain ⟨r1, hr1, v1, hv1, hclip1⟩ := winsorize_col_mem hcol hr hv
  obtain ⟨r0, hr0, v0, hv0, hclip0⟩ := winsorize_col_mem hcol hr1 hv1
  rw [hlo, hhi] at hclip0
  have hv1b : lo ≤ v1 ∧ v1 ≤ hi := by
    rw [hclip0]
    exact clipQ_mem hlohi
  have hpool : ∀ x ∈ colPool (winsorizePanel panel) col, lo ≤ x ∧ x ≤ hi := by
    intro x hx
    obtain ⟨rx, hrx, hvx⟩ := mem_colPool hx
    obtain ⟨rx0, hrx0, vx0, hvx0, hclipx⟩ := winsorize_col_mem hcol hrx hvx
    rw [hlo, hhi] at hclipx
    rw [hclipx]
    exact clipQ_mem hlohi
  rw [hclip1]
  apply clipQ_mem_outer hv1b.1 hv1b.2
  · intro l hl
    exact seriesQuantile_mem (by norm_num [WINSORIZE_QUANTILES])
      (by norm_num [WINSORIZE_QUANTILES]) hl hpool
  · intro h hh
    exact seriesQuantile_mem (by norm_num [WINSORIZE_QUANTILES])
      (by norm_num [WINSORIZE_QUANTILES]) hh hpool

set_option maxRecDepth 1000000 in
/-- C5 witness: on the two-row panel the pooled ROA bounds are the
interpolated percentiles 1 and 99, and the winsorized value 1 lies
within them. -/
theorem winsorize_bounds_witness : (1 : ℚ) ≤ 1 ∧ (1 : ℚ) ≤ 99 :=
  (winsorize_bounds panelCex "ROA" (by decide)).2 1 99
    (by with_unfolding_all decide) (by with_unfolding_all decide)
    (rowW (2000, 1) (some 1)) (by with_unfolding_all decide)
    1 (by with_unfolding_all decide)

set_option maxRecDepth 1000000 in
/-- C6 witness (for the amended claim): after a second winsorization of
the two-row panel the changed value 99/50 still lies within the first
pass's pre-clip bounds [1, 99]. -/
theorem winsorize_second_application_witness :
    (1 : ℚ) ≤ 99 / 50 ∧ (99 / 50 : ℚ) ≤ 99 :=
  winsorize_second_application panelCex
    (show "ROA" ∈ RATIO_NAMES by decide)
    (show seriesQuantile WINSORIZE_QUANTILES.1 (colPool panelCex "ROA") = some 1 by
      with_unfolding_all decide)
    (show seriesQuantile WINSORIZE_QUANTILES.2 (colPool panelCex "ROA") = some 99 by
      with_unfolding_all decide)
    (rowW (2000, 1) (some (99 / 50))) (by with_unfolding_all decide)
    (99 / 50) (by with_unfolding_all decide)

/-! ## Claim C1: every panel ticker carries exactly the 100 quarters -/

/-- The winsorizer is a row-wise map that never touches ticker, quarter,
or the set of value columns of a row. -/
lemma foldl_clip_struct :
    ∀ (cols : List String) (panel : List PanelRow),
      ∃ G : PanelRow → PanelRow,
        cols.foldl (fun p col => clipCol col p) panel = panel.map G ∧
        ∀ r, (G r).ticker = r.ticker ∧ (G r).quarter = r.quarter ∧
          (G r).values.map Prod.fst = r.values.map Prod.fst
  | [], panel => ⟨id, (List.map_id panel).symm, fun r => ⟨rfl, rfl, rfl⟩⟩
  | d :: rest, panel => by
      rw [List.foldl_cons]
      obtain ⟨G, hG, hprop⟩ := foldl_clip_struct rest (clipCol d panel)
      refine ⟨fun r => G (clipRow d
          (seriesQuantile WINSORIZE_QUANTILES.1 (colPool panel d))
          (seriesQuantile WINSORIZE_QUANTILES.2 (colPool panel d)) r), ?_, ?_⟩
      · rw [hG]
        simp only [clipCol, List.map_map]
        rfl
      · intro r
        obtain ⟨h1, h2, h3⟩ := hprop (clipRow d
          (seriesQuantile WINSORIZE_QUANTILES.1 (colPool panel d))
          (seriesQuantile WINSORIZE_QUANTILES.2 (colPool panel d)) r)
        exact ⟨h1, h2, h3.trans (clipRow_keys d _ _ r)⟩

lemma winsorizePanel_struct (panel : List PanelRow) :
    ∃ G : PanelRow → PanelRow,
      winsorizePanel panel = panel.map G ∧
      ∀ r, (G r).ticker = r.ticker ∧ (G r).quarter = r.quarter ∧
        (G r).values.map Prod.fst = r.values.map Prod.fst := by
  rw [winsorizePanel]
  exact foldl_clip_struct RATIO_NAMES panel

lemma computeRatios_ticker (s : Sources) (t : String) :
    ∀ r ∈ computeRatios s t, r.ticker = t := by
  intro r hr
  obtain ⟨q, _, rfl⟩ := List.mem_map.mp hr
  rfl

lemma computeRatios_quarters (s : Sources) (t : String) :
    (computeRatios s t).map (·.quarter) = expectedQuarters := by
  rw [computeRatios, List.map_map]
  exact List.map_id expectedQuarters

lemma computeRatios_keys (s : Sources) (t : String) :
    ∀ r ∈ computeRatios s t, r.values.map Prod.fst = RATIO_NAMES := by
  intro r hr
  obtain ⟨q, _, rfl⟩ := List.mem_map.mp hr
  simp only [RATIO_NAMES, List.map_map]
  rfl

lemma computeRatios_length (s : Sources) (t : String) :
    (computeRatios s t).length = EXPECTED_QUARTERS := by
  rw [computeRatios, List.length_map]
  decide

/-- Filtering the concatenation of per-ticker blocks by one ticker of a
duplicate-free ticker list returns that ticker's block. -/
lemma filter_flatten_blocks (F : String → List PanelRow)
    (hF : ∀ t, ∀ r ∈ F t, r.ticker = t) :
    ∀ (ts : List String), ts.Nodup → ∀ t ∈ ts,
      ((ts.map F).flatten.filter (fun r => r.ticker == t)) = F t
  | [], _, t, ht => absurd ht (List.not_mem_nil t)
  | d :: rest, hnd, t, ht => by
      rw [List.map_cons, List.flatten_cons, List.filter_append]
      rcases List.mem_cons.mp ht with rfl | htr
      · have h1 : (F t).filter (fun r => r.ticker == t) = F t :=
          List.filter_eq_self.mpr (fun r hr => by rw [hF t r hr]; exact beq_self_eq_true t)
        have h2 : ((rest.map F).flatten.filter (fun r => r.ticker == t)) = [] := by
          apply List.filter_eq_nil_iff.mpr
          intro r hr
          obtain ⟨blk, hblk, hrblk⟩ := List.mem_flatten.mp hr
          obtain ⟨t', ht', rfl⟩ := List.mem_map.mp hblk
          have : r.ticker = t' := hF t' r hrblk
          have hne : t' ≠ t := fun h => (List.nodup_cons.mp hnd).1 (h ▸ ht')
          simp [this, hne]
        rw [h1, h2, List.append_nil]
      · have hne : t ≠ d := fun h => (List.nodup_cons.mp hnd).1 (h ▸ htr)
        have h1 : (F d).filter (fun r => r.ticker == t) = [] := by
          apply List.filter_eq_nil_iff.mpr
          intro r hr
          have hrd : r.ticker = d := hF d r hr
          simp only [hrd, beq_iff_eq]
          exact fun h => hne h.symm
        rw [h1, List.nil_append]
        exact filter_flatten_blocks F hF rest (List.nodup_cons.mp hnd).2 t htr

/-- The `.ok` result of `build_ratio_panel` is the winsorized
concatenation of the surviving tickers' ratio blocks. -/
lemma buildRatioPanel_ok_eq {tickers : List String} {smap : List (String × String)}
    {files : Src → String → Option (List RawRec)} {panel : List PanelRow}
    (hok : buildRatioPanel tickers smap files = .ok panel) :
    panel = winsorizePanel (((completeTickers tickers smap files).map
      (fun t => computeRatios (mkSources files t) t)).flatten) := by
  simp only [buildRatioPanel] at hok
  split_ifs at hok with h
  all_goals first
  | exact Except.noConfusion hok
  | (injection hok with h'
     exact h'.symm)

/-- Used by witnesses: the pipeline succeeds when a survivor exists. -/
lemma buildRatioPanel_ok_of_ne {tickers : List String} {smap : List (String × String)}
    {files : Src → String → Option (List RawRec)}
    (h : (completeTickers tickers smap files).isEmpty = false) :
    buildRatioPanel tickers smap files = .ok (winsorizePanel
      (((completeTickers tickers smap files).map
        (fun t => computeRatios (mkSources files t) t)).flatten)) := by
  simp only [buildRatioPanel]
  rw [if_neg (by rw [h]; exact Bool.false_ne_true)]

/-- C1: in every successfully built ratio panel, each ticker present
carries exactly the canonical 100-quarter sequence Q1 2000 – Q4 2024 (in
order, no gap, no extra), and every row carries an entry (possibly
missing) for each of the seven ratio columns. -/
theorem panel_quarters_complete (tickers : List String) (smap : List (String × String))
    (files : Src → String → Option (List RawRec)) (panel : List PanelRow)
    (hnd : tickers.Nodup) (hok : buildRatioPanel tickers smap files = .ok panel) :
    (∀ t ∈ panel.map (·.ticker),
      (panel.filter (fun r => r.ticker == t)).map (·.quarter) = expectedQuarters) ∧
    (∀ row ∈ panel, row.values.map Prod.fst = RATIO_NAMES) := by
  have hsurvnd : (completeTickers tickers smap files).Nodup :=
    ((hnd.filter _).filter _)
  have hbase := buildRatioPanel_ok_eq hok
  obtain ⟨G, hG, hGprop⟩ := winsorizePanel_struct
    (((completeTickers tickers smap files).map
      (fun t => computeRatios (mkSources files t) t)).flatten)
  rw [hG] at hbase
  subst hbase
  set F := fun t => computeRatios (mkSources files t) t with hF
  have hFt : ∀ t, ∀ r ∈ F t, r.ticker = t := fun t => computeRatios_ticker _ t
  constructor
  · intro t ht
    -- t is one of the surviving tickers
    rw [List.map_map] at ht
    obtain ⟨r, hr, hrt⟩ := List.mem_map.mp ht
    obtain ⟨blk, hblk, hrblk⟩ := List.mem_flatten.mp hr
    obtain ⟨t', ht', rfl⟩ := List.mem_map.mp hblk
    have htt' : t = t' := by
      have h1 := (hGprop r).1
      have h2 := hFt t' r hrblk
      simp only [Function.comp] at hrt
      rw [← hrt, h1, h2]
    subst htt'
    -- filter commutes with the winsorizer map
    rw [List.filter_map]
    have hfc : (((completeTickers tickers smap files).map F).flatten.filter
        ((fun r => r.ticker == t) ∘ G)) =
        (((completeTickers tickers smap files).map F).flatten.filter
        (fun r => r.ticker == t)) :=
      List.filter_congr (fun r _ => by
        simp only [Function.comp_apply]
        rw [(hGprop r).1])
    rw [hfc, filter_flatten_blocks F hFt _ hsurvnd t ht', List.map_map]
    have : ((·.quarter) ∘ G : PanelRow → Quarter) = (·.quarter) :=
      funext (fun r => (hGprop r).2.1)
    rw [this]
    exact computeRatios_quarters _ t
  · intro row hrow
    obtain ⟨r, hr, rfl⟩ := List.mem_map.mp hrow
    obtain ⟨blk, hblk, hrblk⟩ := List.mem_flatten.mp hr
    obtain ⟨t', _, rfl⟩ := List.mem_map.mp hblk
    rw [(hGprop r).2.2]
    exact computeRatios_keys _ t' r hrblk

set_option maxRecDepth 1000000 in
/-- C1 witness: one ticker with a complete 100-quarter history builds a
panel whose "A" rows carry exactly the canonical quarter sequence. -/
theorem panel_quarters_complete_witness :
    ((winsorizePanel (((completeTickers ["A"] [] filesW).map
        (fun t => computeRatios (mkSources filesW t) t)).flatten)).filter
      (fun r => r.ticker == "A")).map (·.quarter) = expectedQuarters :=
  (panel_quarters_complete ["A"] [] filesW _ (by decide)
    (buildRatioPanel_ok_of_ne (by with_unfolding_all decide))).1 "A"
    (by with_unfolding_all decide)

end Zeitreihen
